import Mathlib

/-!
Shallow embedding of the wordle game core (`src/wordle_game/game_objects.rs`).

Modelling conventions:
* Rust `String` / `&str` values are modelled as `List Char` (the spec's own
  contract is over sequences of characters); `s.len()` becomes `List.length`
  and `s.chars().nth(i)` becomes `List.get? i`, an `Option Char`.
* `Option.none` models a panic of `Option::unwrap` / an out-of-bounds slice
  write; functions that can panic return `Option`.
* `u8` counters are modelled as `Nat`; the only subtraction sites are guarded
  by the invariants proved below, so truncated subtraction agrees with `u8`.
* `str::to_lowercase` is modelled per character with `Char.toLower`, which
  agrees with Rust on ASCII input.
* The `Player` trait has the single method `get_play(&self, board: &Board)`,
  so a player is modelled as a function `Board → List Char`.
* Rendering (`Board::print`, colors) is an excluded observational collaborator
  and is not modelled.
-/

/-- The `SlotState` enum: per-letter feedback tags carrying the guessed letter. -/
inductive SlotState where
  | NonMatch : Char → SlotState
  | PartialMatch : Char → SlotState
  | Match : Char → SlotState
deriving DecidableEq, Repr

/-- The `Word` enum: a board row, either evaluated (`Full`) or an empty
placeholder carrying the display width. -/
inductive Word where
  | Full : List SlotState → Word
  | Empty : Nat → Word
deriving DecidableEq, Repr

/-- The `impl Default for Word` (`Self::Empty(0)`). -/
instance : Inhabited Word := ⟨Word.Empty 0⟩

/-- The `Board` struct: `words: Vec<Word>`. -/
structure Board where
  words : List Word
deriving DecidableEq, Repr

/-- `Board::new(width, length)`: `(0..length).map(|_| Word::Empty(width)).collect()`. -/
def Board.new (width length : Nat) : Board :=
  ⟨(List.range length).map fun _ => Word.Empty width⟩

/-- `Board::add_word(word, index)`: `self.words[index] = word`. (`List.set` is a
no-op out of bounds where Rust would panic; all call sites proved below stay in
bounds.) -/
def Board.add_word (b : Board) (word : Word) (index : Nat) : Board :=
  ⟨b.words.set index word⟩

/-- Per-character model of Rust `str::to_lowercase` (exact on ASCII). -/
def to_lowercase (s : List Char) : List Char := s.map Char.toLower

/-- The body of `Game::get_diff`'s loop at index `i`: fetch
`player_word.chars().nth(i).unwrap()`, test `self.word.contains(player_letter)`,
and in the positive branch fetch `self.word.chars().nth(i).unwrap()` and compare.
`none` models a panicking `unwrap`. -/
def diffAt (word player_word : List Char) (i : Nat) : Option SlotState :=
  match player_word.get? i with
  | none => none
  | some player_letter =>
    if word.contains player_letter then
      match word.get? i with
      | none => none
      | some actual_letter =>
        if player_letter = actual_letter then some (SlotState.Match player_letter)
        else some (SlotState.PartialMatch player_letter)
    else some (SlotState.NonMatch player_letter)

/-- The `for i in 0..self.word.len()` loop of `Game::get_diff`, pushing one slot
per index and propagating a panic. -/
def diffIndices (word player_word : List Char) : List Nat → Option (List SlotState)
  | [] => some []
  | i :: rest =>
    match diffAt word player_word i with
    | none => none
    | some s =>
      match diffIndices word player_word rest with
      | none => none
      | some ss => some (s :: ss)

/-- `Game::get_diff(player_word)`: the evaluator. Returns the slot list that the
source wraps as `Word::Full`. -/
def get_diff (word player_word : List Char) : Option (List SlotState) :=
  diffIndices word player_word (List.range word.length)

/-- The `GameSummary` struct. -/
structure GameSummary where
  won : Bool
deriving DecidableEq, Repr

/-- The `Game` struct; the player field is the `Player` trait object reduced to
its single method. -/
structure Game where
  word : List Char
  number_of_attempts : Nat
  attempts_left : Nat
  board : Board
  player : Board → List Char

/-- `Game::new(word, number_of_attempts, player)`: note the board width uses the
original word's length while the stored word is lower-cased. -/
def Game.new (word : List Char) (number_of_attempts : Nat) (player : Board → List Char) : Game :=
  { board := Board.new word.length number_of_attempts
    word := to_lowercase word
    number_of_attempts := number_of_attempts
    attempts_left := number_of_attempts
    player := player }

/-- `Game::current_word_index`: `number_of_attempts - attempts_left`. -/
def Game.current_word_index (g : Game) : Nat :=
  g.number_of_attempts - g.attempts_left

/-- Result of the `Game::run` while-loop, instrumented for observation:
`board` and `attempts_left` are the final state, `trace` records the board after
each completed turn (exactly one entry per `player.get_play` call), and
`wonExit` says whether the loop ended via the `break` (winning guess) rather
than by exhausting `attempts_left`. -/
structure RunResult where
  board : Board
  attempts_left : Nat
  trace : List Board
  wonExit : Bool
deriving DecidableEq, Repr

/-- The `while self.attempts_left > 0` loop of `Game::run`, recursing on the
loop counter `attempts_left` (third-from-last argument). Each iteration asks the
player for a word, evaluates it (`none` propagates a `get_diff` panic), writes
the diff at `current_word_index = number_of_attempts - attempts_left`, breaks if
the guess equals the stored word, and otherwise decrements `attempts_left`. -/
def runFrom (word : List Char) (number_of_attempts : Nat) (player : Board → List Char) :
    Nat → Board → Option RunResult
  | 0, b => some ⟨b, 0, [], false⟩
  | n + 1, b =>
    let player_word := player b
    match get_diff word player_word with
    | none => none
    | some slots =>
      let b2 := b.add_word (Word.Full slots) (number_of_attempts - (n + 1))
      if player_word = word then some ⟨b2, n + 1, [b2], true⟩
      else (runFrom word number_of_attempts player n b2).map
        fun r => ⟨r.board, r.attempts_left, b2 :: r.trace, r.wonExit⟩

/-- The loop of `Game::run` applied to a game's own state. -/
def Game.runResult (g : Game) : Option RunResult :=
  runFrom g.word g.number_of_attempts g.player g.attempts_left g.board

/-- `Game::run`: the summary `{ won: self.attempts_left > 0 }` at loop exit. -/
def Game.run (g : Game) : Option GameSummary :=
  g.runResult.map fun r => ⟨decide (0 < r.attempts_left)⟩

/-- Whether a row has been evaluated (`Word::Full`). -/
def Word.is_full : Word → Bool
  | .Full _ => true
  | .Empty _ => false

/-- Whether a row is the untouched placeholder of the given width. -/
def Word.is_empty_row (w : Word) (width : Nat) : Bool :=
  match w with
  | .Empty m => m == width
  | .Full _ => false

/-- Board shape predicate: `total` rows, the first `k` evaluated, the rest the
untouched `Empty width` placeholders. -/
def Board.filledUpTo (b : Board) (width total k : Nat) : Bool :=
  (b.words.length == total) &&
  (List.range total).all fun i =>
    if i < k then (b.words.getD i default).is_full
    else (b.words.getD i default).is_empty_row width

/-! ### Evaluator lemmas -/

/-- Closed form of one loop iteration of `get_diff`, stated with total lookups;
proved equal to `diffAt` in bounds. -/
def slotSpec (word player_word : List Char) (i : Nat) : SlotState :=
  let g := player_word.getD i default
  if word.contains g then
    if g = word.getD i default then SlotState.Match g else SlotState.PartialMatch g
  else SlotState.NonMatch g

lemma getD_eq_get (l : List Char) (i : Nat) (h : i < l.length) :
    l.getD i default = l.get ⟨i, h⟩ := by
  simp [List.getD_eq_getElem?_getD, List.getElem?_eq_getElem h]

lemma diffAt_eq_slotSpec (word pw : List Char) (i : Nat) (hw : i < word.length)
    (hp : i < pw.length) : diffAt word pw i = some (slotSpec word pw i) := by
  have h1 : pw.get? i = some (pw.getD i default) := by
    simp [List.get?_eq_getElem?, List.getElem?_eq_getElem hp, getD_eq_get pw i hp]
  have h2 : word.get? i = some (word.getD i default) := by
    simp [List.get?_eq_getElem?, List.getElem?_eq_getElem hw, getD_eq_get word i hw]
  simp only [diffAt, slotSpec, h1, h2]
  split
  · split <;> rfl
  · rfl

lemma diffIndices_eq_map (word pw : List Char) (l : List Nat)
    (h : ∀ i ∈ l, i < word.length ∧ i < pw.length) :
    diffIndices word pw l = some (l.map (slotSpec word pw)) := by
  induction l with
  | nil => rfl
  | cons a t ih =>
    have ha := h a (List.mem_cons_self a t)
    have ht : ∀ i ∈ t, i < word.length ∧ i < pw.length :=
      fun i hi => h i (List.mem_cons_of_mem a hi)
    simp only [diffIndices, diffAt_eq_slotSpec word pw a ha.1 ha.2, ih ht, List.map_cons]

/-- Under the length precondition, `get_diff` succeeds and its output is the
pointwise `slotSpec` over all positions. -/
lemma get_diff_eq (word pw : List Char) (h : word.length ≤ pw.length) :
    get_diff word pw = some ((List.range word.length).map (slotSpec word pw)) := by
  refine diffIndices_eq_map word pw _ fun i hi => ?_
  rw [List.mem_range] at hi
  exact ⟨hi, lt_of_lt_of_le hi h⟩

lemma slotSpec_at (word pw : List Char) (i : Nat) (hw : i < word.length)
    (hp : i < pw.length) :
    slotSpec word pw i =
      (if word.contains (pw.get ⟨i, hp⟩) then
        if pw.get ⟨i, hp⟩ = word.get ⟨i, hw⟩ then SlotState.Match (pw.get ⟨i, hp⟩)
        else SlotState.PartialMatch (pw.get ⟨i, hp⟩)
      else SlotState.NonMatch (pw.get ⟨i, hp⟩)) := by
  simp only [slotSpec, getD_eq_get pw i hp, getD_eq_get word i hw]

lemma contains_true_iff (l : List Char) (c : Char) : l.contains c = true ↔ c ∈ l :=
  List.elem_iff

lemma get_map_slotSpec (T G : List Char) (i : Nat)
    (hs : i < ((List.range T.length).map (slotSpec T G)).length) :
    ((List.range T.length).map (slotSpec T G)).get ⟨i, hs⟩ = slotSpec T G i := by
  simp

/-! ### Claims about the evaluator -/

/-- Claim C2: for target `"aab"` and guess `"aaa"`, `get_diff` returns exactly
`[Match(a), Match(a), PartialMatch(a)]` — the containment-based policy marks the
repeated guessed letter `PartialMatch` at the non-exact position even though it
occurs fewer times in the target. -/
theorem claim_c2 :
    get_diff ['a', 'a', 'b'] ['a', 'a', 'a'] =
      some [SlotState.Match 'a', SlotState.Match 'a', SlotState.PartialMatch 'a'] := by
  decide

/-- Claim C3: for every target `T` and guess `G` of equal length, `get_diff`
produces a sequence of length `len(T)` whose entry at position `i` is
`Match(G[i])` if and only if `G[i] = T[i]`. -/
theorem claim_c3 (T G : List Char) (h : G.length = T.length) :
    ∃ slots, get_diff T G = some slots ∧ slots.length = T.length ∧
      ∀ i (hi : i < T.length) (hs : i < slots.length) (hg : i < G.length),
        (slots.get ⟨i, hs⟩ = SlotState.Match (G.get ⟨i, hg⟩) ↔
          G.get ⟨i, hg⟩ = T.get ⟨i, hi⟩) := by
  refine ⟨_, get_diff_eq T G (le_of_eq h.symm), by simp, ?_⟩
  intro i hi hs hg
  rw [get_map_slotSpec T G i hs, slotSpec_at T G i hi hg]
  by_cases hm : G.get ⟨i, hg⟩ ∈ T
  · by_cases he : G.get ⟨i, hg⟩ = T.get ⟨i, hi⟩ <;> simp_all
  · have he : ¬ G.get ⟨i, hg⟩ = T.get ⟨i, hi⟩ := fun he => by
      rw [he] at hm; exact hm (List.get_mem T i hi)
    simp_all

/-- Claim C3 witness: instance at target `"ab"`, guess `"ba"`. -/
theorem claim_c3_witness :
    ∃ slots, get_diff ['a', 'b'] ['b', 'a'] = some slots ∧
      slots.length = (['a', 'b'] : List Char).length ∧
      ∀ i (hi : i < (['a', 'b'] : List Char).length) (hs : i < slots.length)
        (hg : i < (['b', 'a'] : List Char).length),
        (slots.get ⟨i, hs⟩ = SlotState.Match ((['b', 'a'] : List Char).get ⟨i, hg⟩) ↔
          (['b', 'a'] : List Char).get ⟨i, hg⟩ = (['a', 'b'] : List Char).get ⟨i, hi⟩) :=
  claim_c3 ['a', 'b'] ['b', 'a'] rfl

/-- Claim C4: for every target `T` and guess `G` of equal length and every
position `i`, the entry is `NonMatch(G[i])` iff `G[i]` occurs nowhere in `T`;
otherwise it is `Match(G[i])` when `G[i] = T[i]` and `PartialMatch(G[i])` when
`G[i] ≠ T[i]`. -/
theorem claim_c4 (T G : List Char) (h : G.length = T.length) :
    ∃ slots, get_diff T G = some slots ∧ slots.length = T.length ∧
      ∀ i (hi : i < T.length) (hs : i < slots.length) (hg : i < G.length),
        (slots.get ⟨i, hs⟩ = SlotState.NonMatch (G.get ⟨i, hg⟩) ↔ G.get ⟨i, hg⟩ ∉ T) ∧
        (G.get ⟨i, hg⟩ ∈ T → G.get ⟨i, hg⟩ = T.get ⟨i, hi⟩ →
          slots.get ⟨i, hs⟩ = SlotState.Match (G.get ⟨i, hg⟩)) ∧
        (G.get ⟨i, hg⟩ ∈ T → G.get ⟨i, hg⟩ ≠ T.get ⟨i, hi⟩ →
          slots.get ⟨i, hs⟩ = SlotState.PartialMatch (G.get ⟨i, hg⟩)) := by
  refine ⟨_, get_diff_eq T G (le_of_eq h.symm), by simp, ?_⟩
  intro i hi hs hg
  rw [get_map_slotSpec T G i hs, slotSpec_at T G i hi hg]
  by_cases hm : G.get ⟨i, hg⟩ ∈ T
  · by_cases he : G.get ⟨i, hg⟩ = T.get ⟨i, hi⟩ <;> simp_all
  · simp_all

/-- Claim C4 witness: instance at target `"ab"`, guess `"ac"`. -/
theorem claim_c4_witness :
    ∃ slots, get_diff ['a', 'b'] ['a', 'c'] = some slots ∧
      slots.length = (['a', 'b'] : List Char).length ∧
      ∀ i (hi : i < (['a', 'b'] : List Char).length) (hs : i < slots.length)
        (hg : i < (['a', 'c'] : List Char).length),
        (slots.get ⟨i, hs⟩ = SlotState.NonMatch ((['a', 'c'] : List Char).get ⟨i, hg⟩) ↔
          (['a', 'c'] : List Char).get ⟨i, hg⟩ ∉ (['a', 'b'] : List Char)) ∧
        ((['a', 'c'] : List Char).get ⟨i, hg⟩ ∈ (['a', 'b'] : List Char) →
          (['a', 'c'] : List Char).get ⟨i, hg⟩ = (['a', 'b'] : List Char).get ⟨i, hi⟩ →
          slots.get ⟨i, hs⟩ = SlotState.Match ((['a', 'c'] : List Char).get ⟨i, hg⟩)) ∧
        ((['a', 'c'] : List Char).get ⟨i, hg⟩ ∈ (['a', 'b'] : List Char) →
          (['a', 'c'] : List Char).get ⟨i, hg⟩ ≠ (['a', 'b'] : List Char).get ⟨i, hi⟩ →
          slots.get ⟨i, hs⟩ = SlotState.PartialMatch ((['a', 'c'] : List Char).get ⟨i, hg⟩)) :=
  claim_c4 ['a', 'b'] ['a', 'c'] rfl

/-- Claim C9: for every target `T` and guess `G` satisfying the length
precondition, the evaluator is total — no lookup fails (`none`, the model of a
panicking `unwrap`, is not returned) and a full result sequence of length
`len(T)` is produced. -/
theorem claim_c9 (T G : List Char) (h : G.length = T.length) :
    ∃ slots, get_diff T G = some slots ∧ slots.length = T.length :=
  ⟨_, get_diff_eq T G (le_of_eq h.symm), by simp⟩

/-- Claim C9 witness: instance at target `"xyz"`, guess `"zzq"`. -/
theorem claim_c9_witness :
    ∃ slots, get_diff ['x', 'y', 'z'] ['z', 'z', 'q'] = some slots ∧
      slots.length = (['x', 'y', 'z'] : List Char).length :=
  claim_c9 ['x', 'y', 'z'] ['z', 'z', 'q'] rfl

/-! ### Game-loop lemmas -/

lemma runFrom_basic (word : List Char) (tot : Nat) (player : Board → List Char) :
    ∀ n b r, runFrom word tot player n b = some r →
      (0 < r.attempts_left ↔ r.wonExit = true) ∧ r.attempts_left ≤ n ∧ r.trace.length ≤ n := by
  intro n
  induction n with
  | zero =>
    intro b r hr
    simp only [runFrom, Option.some.injEq] at hr
    subst hr
    simp
  | succ n ih =>
    intro b r hr
    simp only [runFrom] at hr
    split at hr
    · exact absurd hr (by simp)
    · split at hr
      · simp only [Option.some.injEq] at hr
        subst hr
        simp
      · rcases hmap : runFrom word tot player n
            (b.add_word (Word.Full _) (tot - (n + 1))) with _ | r0
        · rw [hmap] at hr; exact absurd hr (by simp)
        · rw [hmap] at hr
          simp only [Option.map_some', Option.some.injEq] at hr
          subst hr
          obtain ⟨h1, h2, h3⟩ := ih _ _ hmap
          refine ⟨h1, Nat.le_succ_of_le h2, ?_⟩
          simpa using Nat.succ_le_succ h3

lemma runFrom_const_stuck (word pw : List Char) (tot : Nat) (hne : pw ≠ word)
    (hlen : word.length ≤ pw.length) :
    ∀ n b, ∃ r, runFrom word tot (fun _ => pw) n b = some r ∧
      r.attempts_left = 0 ∧ r.wonExit = false := by
  intro n
  induction n with
  | zero => intro b; exact ⟨⟨b, 0, [], false⟩, rfl, rfl, rfl⟩
  | succ n ih =>
    intro b
    obtain ⟨r0, hr0, h0, hw⟩ := ih
      (b.add_word (Word.Full ((List.range word.length).map (slotSpec word pw))) (tot - (n + 1)))
    refine ⟨⟨r0.board, r0.attempts_left,
      b.add_word (Word.Full ((List.range word.length).map (slotSpec word pw)))
        (tot - (n + 1)) :: r0.trace, r0.wonExit⟩, ?_, h0, hw⟩
    simp only [runFrom, get_diff_eq word pw hlen, hne, if_neg, hr0, Option.map_some']
    simp

/-! ### Claims about the game loop -/

/-- Claim C1, corrected. The claim as written says the win transition triggers
under case-insensitive equality, so that a guess differing from the target only
in letter case wins; the code compares the raw guess with the lower-cased
target using case-sensitive equality, so such a guess loses (see
`claim_c1_counterexample`). Amended: for a session whose target was lower-cased
at creation, a turn's guess triggers the win transition exactly when the guess
is case-sensitively equal to the lower-cased target; proved here for the whole
run with a constant guess source. -/
theorem claim_c1_amended (word pw : List Char) (total : Nat)
    (hlen : pw.length = word.length) (hpos : 0 < total) :
    ∃ s, (Game.new word total fun _ => pw).run = some s ∧
      (s.won = true ↔ pw = to_lowercase word) := by
  have hlen2 : (to_lowercase word).length ≤ pw.length := by
    simp [to_lowercase, hlen]
  obtain ⟨m, rfl⟩ : ∃ m, total = m + 1 := ⟨total - 1, by omega⟩
  by_cases hw : pw = to_lowercase word
  · subst hw
    refine ⟨⟨true⟩, ?_, by simp⟩
    simp only [Game.run, Game.runResult, Game.new, runFrom,
      get_diff_eq (to_lowercase word) (to_lowercase word) (Nat.le_refl _)]
    simp
  · obtain ⟨r, hr, h0, hwx⟩ :=
      runFrom_const_stuck (to_lowercase word) pw (m + 1) hw hlen2 (m + 1)
        (Board.new word.length (m + 1))
    refine ⟨⟨false⟩, ?_, by simp [hw]⟩
    simp only [Game.run, Game.runResult, Game.new]
    rw [hr]
    simp [h0]

/-- Claim C1 counterexample: the target `"abc"` is already lower-case, the guess
`"ABC"` differs from it only in letter case (its lower-casing is the target),
yet the session with two attempts ends with `won = false` — the win transition
never fires, refuting case-insensitive comparison. -/
theorem claim_c1_counterexample :
    to_lowercase ['A', 'B', 'C'] = ['a', 'b', 'c'] ∧
    (['A', 'B', 'C'] : List Char) ≠ ['a', 'b', 'c'] ∧
    (Game.new ['a', 'b', 'c'] 2 fun _ => ['A', 'B', 'C']).run = some ⟨false⟩ := by
  decide

/-- Claim C1 witness: instance of `claim_c1_amended` at target `"cat"`,
guess `"cat"`, three attempts. -/
theorem claim_c1_witness :
    ∃ s, (Game.new ['c', 'a', 't'] 3 fun _ => ['c', 'a', 't']).run = some s ∧
      (s.won = true ↔ (['c', 'a', 't'] : List Char) = to_lowercase ['c', 'a', 't']) :=
  claim_c1_amended ['c', 'a', 't'] ['c', 'a', 't'] 3 rfl (by decide)

/-- Claim C5: the returned summary has `won = (attempts_left > 0)` at loop exit,
and that is true exactly when the loop exited via the win `break` (`wonExit`),
false exactly when it exited by attempts exhaustion; since the winning turn
does not decrement `attempts_left`, a win on the final attempt still yields
`won = true` (the witness instantiates exactly that case). -/
theorem claim_c5 (g : Game) (r : RunResult) (h : g.runResult = some r) :
    g.run = some ⟨decide (0 < r.attempts_left)⟩ ∧
      (0 < r.attempts_left ↔ r.wonExit = true) := by
  refine ⟨?_,
    (runFrom_basic g.word g.number_of_attempts g.player g.attempts_left g.board r h).1⟩
  simp [Game.run, h]

/-- Claim C5 witness: a win on the final (single) attempt yields `won = true`. -/
theorem claim_c5_witness :
    (Game.new ['a'] 1 fun _ => ['a']).run = some ⟨decide (0 < (1 : Nat))⟩ ∧
      (0 < (1 : Nat) ↔ true = true) :=
  claim_c5 (Game.new ['a'] 1 fun _ => ['a'])
    ⟨⟨[Word.Full [SlotState.Match 'a']]⟩, 1, [⟨[Word.Full [SlotState.Match 'a']]⟩], true⟩
    (by decide)

/-- Claim C7: every session run terminates — `runFrom` is a total structurally
recursive function — and performs at most `total_attempts` turns: the trace
records exactly one board per guess-source call, and its length is bounded by
the attempt budget. -/
theorem claim_c7 (word : List Char) (total : Nat) (player : Board → List Char) (r : RunResult)
    (h : (Game.new word total player).runResult = some r) :
    r.trace.length ≤ total :=
  (runFrom_basic (to_lowercase word) total player total (Board.new word.length total) r h).2.2

/-- Claim C7 witness: one attempt, non-matching constant guess, one turn. -/
theorem claim_c7_witness :
    ([(⟨[Word.Full [SlotState.NonMatch 'b']]⟩ : Board)] : List Board).length ≤ 1 :=
  claim_c7 ['a'] 1 (fun _ => ['b'])
    ⟨⟨[Word.Full [SlotState.NonMatch 'b']]⟩, 0, [⟨[Word.Full [SlotState.NonMatch 'b']]⟩], false⟩
    (by decide)

/-- Claim C8: the attempt budget invariant. `attempts_left` starts equal to
`number_of_attempts` in `Game::new`, and for every run of the loop from any
fuel value `n` the final counter satisfies `attempts_left ≤ n` — it is
decremented only under the positive loop guard and never incremented, so the
counter stays within `0 ≤ attempts_left ≤ total_attempts` and never
underflows. -/
theorem claim_c8 (word w2 : List Char) (total : Nat) (player : Board → List Char)
    (n : Nat) (b : Board) (r : RunResult) (h : runFrom w2 total player n b = some r) :
    (Game.new word total player).attempts_left = total ∧ r.attempts_left ≤ n :=
  ⟨rfl, (runFrom_basic w2 total player n b r h).2.1⟩

/-- Claim C8 witness: two attempts, constant wrong guess, counter ends at 0. -/
theorem claim_c8_witness :
    (Game.new ['a'] 2 fun _ => ['b']).attempts_left = 2 ∧ (0 : Nat) ≤ 2 :=
  claim_c8 ['a'] ['a'] 2 (fun _ => ['b']) 2 (Board.new 1 2)
    ⟨⟨[Word.Full [SlotState.NonMatch 'b'], Word.Full [SlotState.NonMatch 'b']]⟩, 0,
      [⟨[Word.Full [SlotState.NonMatch 'b'], Word.Empty 1]⟩,
       ⟨[Word.Full [SlotState.NonMatch 'b'], Word.Full [SlotState.NonMatch 'b']]⟩], false⟩
    (by decide)

/-- Claim C10: a session created with `total_attempts = 0` returns immediately
with `won = false`; the loop body never runs, so the trace is empty (no
guess-source call, no evaluation, no board write) and the board has zero
rows. -/
theorem claim_c10 (word : List Char) (player : Board → List Char) :
    (Game.new word 0 player).run = some ⟨false⟩ ∧
    (Game.new word 0 player).runResult = some ⟨Board.new word.length 0, 0, [], false⟩ ∧
    (Board.new word.length 0).words = [] :=
  ⟨rfl, rfl, rfl⟩

/-! ### Board invariant lemmas -/

lemma getD_set_ne (l : List Word) (k i : Nat) (w : Word) (h : i ≠ k) :
    (l.set k w).getD i default = l.getD i default := by
  simp [List.getD_eq_getElem?_getD, List.getElem?_set_ne (Ne.symm h)]

lemma getD_set_self (l : List Word) (k : Nat) (w : Word) (h : k < l.length) :
    (l.set k w).getD k default = w := by
  simp [List.getD_eq_getElem?_getD, List.getElem?_set_self h]

lemma filledUpTo_iff (b : Board) (width total k : Nat) :
    b.filledUpTo width total k = true ↔
      (b.words.length = total ∧ ∀ i, i < total →
        (if i < k then (b.words.getD i default).is_full
         else (b.words.getD i default).is_empty_row width) = true) := by
  simp [Board.filledUpTo, List.all_eq_true, List.mem_range]

lemma filledUpTo_add_word (b : Board) (width total k : Nat) (slots : List SlotState)
    (hk : k < total) (hb : b.filledUpTo width total k = true) :
    (b.add_word (Word.Full slots) k).filledUpTo width total (k + 1) = true := by
  rw [filledUpTo_iff] at hb ⊢
  obtain ⟨hlen, hall⟩ := hb
  refine ⟨by simp [Board.add_word, hlen], ?_⟩
  intro i hi
  by_cases hik : i = k
  · subst hik
    rw [if_pos (Nat.lt_succ_self i)]
    show ((b.words.set i (Word.Full slots)).getD i default).is_full = true
    rw [getD_set_self b.words i (Word.Full slots) (hlen ▸ hi)]
    rfl
  · have hne : (b.add_word (Word.Full slots) k).words.getD i default =
        b.words.getD i default := getD_set_ne b.words k i (Word.Full slots) hik
    rw [hne]
    have hprev := hall i hi
    by_cases hlt : i < k
    · rw [if_pos hlt] at hprev
      rw [if_pos (Nat.lt_succ_of_lt hlt)]
      exact hprev
    · have hge : ¬ i < k + 1 := by omega
      rw [if_neg hlt] at hprev
      rw [if_neg hge]
      exact hprev

lemma board_new_filled (width total : Nat) :
    (Board.new width total).filledUpTo width total 0 = true := by
  rw [filledUpTo_iff]
  refine ⟨by simp [Board.new], ?_⟩
  intro i hi
  rw [if_neg (Nat.not_lt_zero i)]
  have hrow : (Board.new width total).words.getD i default = Word.Empty width := by
    show ((List.range total).map fun _ => Word.Empty width).getD i default = Word.Empty width
    have hlt : i < ((List.range total).map fun _ => Word.Empty width).length := by simp [hi]
    rw [List.getD_eq_getElem?_getD, List.getElem?_eq_getElem hlt]
    simp
  rw [hrow]
  simp [Word.is_empty_row]

lemma runFrom_filled (word : List Char) (total : Nat) (player : Board → List Char) (width : Nat) :
    ∀ n b r, n ≤ total → b.filledUpTo width total (total - n) = true →
      runFrom word total player n b = some r →
      (∀ k (hk : k < r.trace.length),
        (r.trace.get ⟨k, hk⟩).filledUpTo width total (total - n + k + 1) = true) ∧
      (∀ hk0 : 0 < r.trace.length, ∀ i, i < total - n →
        (r.trace.get ⟨0, hk0⟩).words.getD i default = b.words.getD i default) ∧
      (∀ k (hk1 : k + 1 < r.trace.length) (hk : k < r.trace.length), ∀ i,
        i < total - n + k + 1 →
        (r.trace.get ⟨k + 1, hk1⟩).words.getD i default =
          (r.trace.get ⟨k, hk⟩).words.getD i default) := by
  intro n
  induction n with
  | zero =>
    intro b r hn hb hr
    simp only [runFrom, Option.some.injEq] at hr
    subst hr
    exact ⟨fun k hk => absurd hk (by simp), fun hk0 => absurd hk0 (by simp),
      fun k hk1 => absurd hk1 (by simp)⟩
  | succ n ih =>
    intro b r hn hb hr
    simp only [runFrom] at hr
    split at hr
    · exact absurd hr (by simp)
    · rename_i slots hdiff
      have hidx : total - (n + 1) < total := by omega
      have hb2 : (b.add_word (Word.Full slots) (total - (n + 1))).filledUpTo width total
          (total - (n + 1) + 1) = true :=
        filledUpTo_add_word b width total (total - (n + 1)) slots hidx hb
      have harith : total - (n + 1) + 1 = total - n := by omega
      split at hr
      · simp only [Option.some.injEq] at hr
        subst hr
        refine ⟨?_, ?_, ?_⟩
        · intro k hk
          have hk0 : k = 0 := Nat.lt_one_iff.mp (by simpa using hk)
          subst hk0
          show (b.add_word (Word.Full slots) (total - (n + 1))).filledUpTo width total
            (total - (n + 1) + 0 + 1) = true
          simpa using hb2
        · intro hk0 i hi
          show (b.words.set (total - (n + 1)) (Word.Full slots)).getD i default =
            b.words.getD i default
          exact getD_set_ne b.words (total - (n + 1)) i (Word.Full slots) (by omega)
        · intro k hk1
          exact absurd hk1 (by simp)
      · rcases hmap : runFrom word total player n
            (b.add_word (Word.Full slots) (total - (n + 1))) with _ | r0
        · rw [hmap] at hr; exact absurd hr (by simp)
        · rw [hmap] at hr
          simp only [Option.map_some', Option.some.injEq] at hr
          subst hr
          have hb2n : (b.add_word (Word.Full slots) (total - (n + 1))).filledUpTo width total
              (total - n) = true := harith ▸ hb2
          obtain ⟨P1, P2, P3⟩ := ih (b.add_word (Word.Full slots) (total - (n + 1))) r0
            (by omega) hb2n hmap
          refine ⟨?_, ?_, ?_⟩
          · intro k hk
            cases k with
            | zero =>
              show (b.add_word (Word.Full slots) (total - (n + 1))).filledUpTo width total
                (total - (n + 1) + 0 + 1) = true
              simpa using hb2
            | succ j =>
              have hj : j < r0.trace.length := by simpa using hk
              show (r0.trace.get ⟨j, hj⟩).filledUpTo width total
                (total - (n + 1) + (j + 1) + 1) = true
              have he : total - (n + 1) + (j + 1) + 1 = total - n + j + 1 := by omega
              rw [he]
              exact P1 j hj
          · intro hk0 i hi
            show (b.words.set (total - (n + 1)) (Word.Full slots)).getD i default =
              b.words.getD i default
            exact getD_set_ne b.words (total - (n + 1)) i (Word.Full slots) (by omega)
          · intro k hk1 hk i hi
            cases k with
            | zero =>
              have h0 : 0 < r0.trace.length := by simpa using hk1
              show (r0.trace.get ⟨0, h0⟩).words.getD i default =
                (b.add_word (Word.Full slots) (total - (n + 1))).words.getD i default
              exact P2 h0 i (by omega)
            | succ j =>
              have hj1 : j + 1 < r0.trace.length := by simpa using hk1
              have hj : j < r0.trace.length := by omega
              show (r0.trace.get ⟨j + 1, hj1⟩).words.getD i default =
                (r0.trace.get ⟨j, hj⟩).words.getD i default
              exact P3 j hj1 hj i (by omega)

/-- Claim C6: the board invariant of a session. The fresh board has zero
evaluated rows; after `k + 1` completed turns (the `k`-th trace entry) exactly
the first `k + 1` rows are `Full` and the remaining rows are the untouched
`Empty` placeholders — rows are written at index
`number_of_attempts - attempts_left`, i.e. in attempt order — and between
consecutive turns every already-evaluated row is left unchanged (never
rewritten). -/
theorem claim_c6 (word : List Char) (total : Nat) (player : Board → List Char) (r : RunResult)
    (hr : (Game.new word total player).runResult = some r) :
    (Board.new word.length total).filledUpTo word.length total 0 = true ∧
    (∀ k (hk : k < r.trace.length),
      (r.trace.get ⟨k, hk⟩).filledUpTo word.length total (k + 1) = true) ∧
    (∀ k (hk1 : k + 1 < r.trace.length) (hk : k < r.trace.length), ∀ i, i < k + 1 →
      (r.trace.get ⟨k + 1, hk1⟩).words.getD i default =
        (r.trace.get ⟨k, hk⟩).words.getD i default) := by
  have hinit : (Board.new word.length total).filledUpTo word.length total (total - total) =
      true := by
    rw [Nat.sub_self]
    exact board_new_filled word.length total
  obtain ⟨P1, P2, P3⟩ := runFrom_filled (to_lowercase word) total player word.length total
    (Board.new word.length total) r (Nat.le_refl total) hinit hr
  refine ⟨board_new_filled word.length total, ?_, ?_⟩
  · intro k hk
    have hkk := P1 k hk
    simpa using hkk
  · intro k hk1 hk i hi
    exact P3 k hk1 hk i (by omega)

/-- Claim C6 witness: a two-attempt session whose guess source misses first and
then hits; both trace entries satisfy the row invariant and the first row is
not rewritten by the second turn. -/
theorem claim_c6_witness :
    (Board.new 2 2).filledUpTo 2 2 0 = true ∧
    (∀ k (hk : k < ([⟨[Word.Full [SlotState.NonMatch 'x', SlotState.NonMatch 'y'], Word.Empty 2]⟩,
        ⟨[Word.Full [SlotState.NonMatch 'x', SlotState.NonMatch 'y'],
          Word.Full [SlotState.Match 'a', SlotState.Match 'b']]⟩] : List Board).length),
      (([⟨[Word.Full [SlotState.NonMatch 'x', SlotState.NonMatch 'y'], Word.Empty 2]⟩,
        ⟨[Word.Full [SlotState.NonMatch 'x', SlotState.NonMatch 'y'],
          Word.Full [SlotState.Match 'a', SlotState.Match 'b']]⟩] : List Board).get
            ⟨k, hk⟩).filledUpTo 2 2 (k + 1) = true) ∧
    (∀ k (hk1 : k + 1 < ([⟨[Word.Full [SlotState.NonMatch 'x', SlotState.NonMatch 'y'],
          Word.Empty 2]⟩,
        ⟨[Word.Full [SlotState.NonMatch 'x', SlotState.NonMatch 'y'],
          Word.Full [SlotState.Match 'a', SlotState.Match 'b']]⟩] : List Board).length)
      (hk : k < ([⟨[Word.Full [SlotState.NonMatch 'x', SlotState.NonMatch 'y'], Word.Empty 2]⟩,
        ⟨[Word.Full [SlotState.NonMatch 'x', SlotState.NonMatch 'y'],
          Word.Full [SlotState.Match 'a', SlotState.Match 'b']]⟩] : List Board).length),
      ∀ i, i < k + 1 →
      (([⟨[Word.Full [SlotState.NonMatch 'x', SlotState.NonMatch 'y'], Word.Empty 2]⟩,
        ⟨[Word.Full [SlotState.NonMatch 'x', SlotState.NonMatch 'y'],
          Word.Full [SlotState.Match 'a', SlotState.Match 'b']]⟩] : List Board).get
            ⟨k + 1, hk1⟩).words.getD i default =
      (([⟨[Word.Full [SlotState.NonMatch 'x', SlotState.NonMatch 'y'], Word.Empty 2]⟩,
        ⟨[Word.Full [SlotState.NonMatch 'x', SlotState.NonMatch 'y'],
          Word.Full [SlotState.Match 'a', SlotState.Match 'b']]⟩] : List Board).get
            ⟨k, hk⟩).words.getD i default) :=
  claim_c6 ['a', 'b'] 2
    (fun b => if b.words.getD 0 default == Word.Empty 2 then ['x', 'y'] else ['a', 'b'])
    ⟨⟨[Word.Full [SlotState.NonMatch 'x', SlotState.NonMatch 'y'],
        Word.Full [SlotState.Match 'a', SlotState.Match 'b']]⟩, 1,
      [⟨[Word.Full [SlotState.NonMatch 'x', SlotState.NonMatch 'y'], Word.Empty 2]⟩,
       ⟨[Word.Full [SlotState.NonMatch 'x', SlotState.NonMatch 'y'],
         Word.Full [SlotState.Match 'a', SlotState.Match 'b']]⟩], true⟩
    (by decide)
